import Mathlib

/-!
Verification of the pairing-based signature core of `concordium-base`
(`rust-src/aggregate_sig/src/aggregate_sig.rs` and
`rust-src/ps_sig/src/secret.rs`), as a shallow embedding in Lean.

Modelling conventions, used throughout:

* Byte strings (`&[u8]`) are `List Nat` (each entry one byte value).
* The bilinear-pairing capability (the `Pairing` trait of
  `curve_arithmetic`, external to this repository) is a structure
  `PairingOps` bundling exactly the operations the signature code calls:
  `hash_to_group`, `mul_by_scalar`, `plus_point`, `one_point`,
  `zero_point`, the pairing map, and the target-field `zero`, `one` and
  `mul_assign`.  The signature algorithms are functions over an arbitrary
  `PairingOps`, mirroring the Rust generics.  A small faithful
  instantiation `cModel` (groups of prime order 5 in exponent
  representation, target field `ZMod 11` with the order-5 subgroup
  generated by `3`) is used for concrete witnesses and counterexamples.
* The SHA-512 hash used by the duplicate-message check (crate `sha2`,
  external) is an arbitrary function parameter `shaFn`; a digest is its
  64-byte output, again a `List Nat`.
* Rayon's `par_iter().fold(id, f).reduce(id2, op)` pipeline folds each
  scheduler-chosen contiguous chunk of the input sequentially with `f`
  starting from `id`, then combines the per-chunk accumulators with `op`
  starting from `id2`.  The chunking is scheduler nondeterminism, so the
  embedding takes the list of chunks (`chunks : List (List _)`) as an
  explicit parameter; the flat input slice is `chunks.flatten`.  Rayon's
  `reduce` combines accumulators in some tree order; since every `op`
  used here (`mul_assign` on the target field, `plus_point` on `G_2`) is
  associative with the supplied identity, a tree combine equals the
  sequential left fold used in the embedding.  Rayon produces at least
  one chunk even for an empty slice (a leaf folder always emits its
  accumulator on completion), so the schedulable chunkings of the empty
  slice are the nonempty lists of empty chunks.
* Rust's stable `Vec::sort` (by an `Ord` instance) is modelled by
  Mathlib's stable `List.insertionSort` with the same total order.
* `rand` generators are modelled as a function `rng : Nat → F` together
  with a position counter; `generate_scalar` reads `rng pos` and advances
  the counter.  This makes "no randomness is drawn" a provable statement
  (the returned counter is unchanged).
-/

/-! ## Lexicographic order on byte strings

Rust compares `[u8]` slices lexicographically; `Hash::cmp` in
`aggregate_sig.rs` compares `self.0[0..63]`, the first 63 of the 64
digest bytes, with exactly this slice order. -/

/-- Lexicographic `≤` on byte strings, as Rust's `Ord` on `&[u8]`. -/
def lexLeB : List Nat → List Nat → Bool
  | [], _ => true
  | _ :: _, [] => false
  | a :: as, b :: bs => if a < b then true else if b < a then false else lexLeB as bs

/-- Propositional form of `lexLeB`, for use with `List.insertionSort`. -/
def lexLe (a b : List Nat) : Prop := lexLeB a b = true

instance : DecidableRel lexLe := fun a b =>
  inferInstanceAs (Decidable (lexLeB a b = true))

instance : IsTotal (List Nat) lexLe := by
  constructor
  intro a
  induction a with
  | nil => intro b; left; rfl
  | cons x xs ih =>
    intro b
    cases b with
    | nil => right; rfl
    | cons y ys =>
      by_cases hxy : x < y
      · left; simp [lexLe, lexLeB, hxy]
      · by_cases hyx : y < x
        · right; simp [lexLe, lexLeB, hyx, hxy]
        · rcases ih ys with h | h
          · left; simpa [lexLe, lexLeB, hxy, hyx] using h
          · right
            have hxy' : ¬ y < x := hyx
            simpa [lexLe, lexLeB, hyx, hxy, Nat.lt_irrefl] using h

instance : IsTrans (List Nat) lexLe := by
  constructor
  intro a
  induction a with
  | nil => intro b c _ _; rfl
  | cons x xs ih =>
    intro b c hab hbc
    cases b with
    | nil => simp [lexLe, lexLeB] at hab
    | cons y ys =>
      cases c with
      | nil => simp [lexLe, lexLeB] at hbc
      | cons z zs =>
        simp only [lexLe, lexLeB] at hab hbc ⊢
        by_cases hxy : x < y
        · have hxz : x < z := by
            by_cases hyz : y < z
            · exact Nat.lt_trans hxy hyz
            · by_cases hzy : z < y
              · simp [hyz, hzy] at hbc
              · have : y = z := Nat.le_antisymm (Nat.le_of_not_lt hzy) (Nat.le_of_not_lt hyz)
                omega
          simp [hxz]
        · by_cases hyx : y < x
          · simp [hxy, hyx] at hab
          · have hxy' : x = y := Nat.le_antisymm (Nat.le_of_not_lt hyx) (Nat.le_of_not_lt hxy)
            subst hxy'
            simp only [hxy, Nat.lt_irrefl, if_false, if_neg] at hab
            by_cases hyz : x < z
            · simp [hyz]
            · by_cases hzy : z < x
              · simp [hyz, hzy] at hbc
              · simp only [hyz, hzy, if_false] at hbc ⊢
                exact ih ys zs (by simpa [Nat.lt_irrefl] using hab)
                  (by simpa [Nat.lt_irrefl] using hbc)

theorem lexLeB_antisymm : ∀ a b : List Nat, lexLeB a b = true → lexLeB b a = true → a = b := by
  intro a
  induction a with
  | nil =>
    intro b hab hba
    cases b with
    | nil => rfl
    | cons y ys => simp [lexLeB] at hba
  | cons x xs ih =>
    intro b hab hba
    cases b with
    | nil => simp [lexLeB] at hab
    | cons y ys =>
      simp only [lexLeB] at hab hba
      by_cases hxy : x < y
      · have : ¬ y < x := Nat.lt_asymm hxy
        simp [hxy, this] at hba
      · by_cases hyx : y < x
        · simp [hxy, hyx] at hab
        · have hxy' : x = y := Nat.le_antisymm (Nat.le_of_not_lt hyx) (Nat.le_of_not_lt hxy)
          subst hxy'
          simp only [Nat.lt_irrefl, if_false] at hab hba
          rw [ih ys (by simpa using hab) (by simpa using hba)]

/-! ## Duplicate-message detection (`Hash`, `has_duplicates`, `hash_message`)

`hash_message` is SHA-512 (external crate `sha2`), so it enters as the
function parameter `shaFn : List Nat → List Nat` producing the 64-byte
digest.  The `Hash` newtype's `PartialEq`/`Ord` both look only at
`self.0[0..63]`, the first 63 digest bytes; the embedding therefore
carries that 63-byte key directly. -/

/-- The comparison key of the `Hash` wrapper: the first 63 of the 64
digest bytes (`self.0[0..63]` in both `PartialEq::eq` and `Ord::cmp`). -/
def hashKey (shaFn : List Nat → List Nat) (m : List Nat) : List Nat :=
  (shaFn m).take 63

/-- The scan `for i in 1..len { if h[i-1] == h[i] { return true } }`. -/
def adjacentDup : List (List Nat) → Bool
  | [] => false
  | [_] => false
  | a :: b :: t => a == b || adjacentDup (b :: t)

/-- `has_duplicates`: hash every message, sort the hashes by the
63-byte-prefix order, report whether two adjacent sorted hashes have
equal 63-byte prefixes. -/
def hasDuplicates (shaFn : List Nat → List Nat) (msgs : List (List Nat)) : Bool :=
  adjacentDup (List.insertionSort lexLe (msgs.map (hashKey shaFn)))

/-! ## The pairing capability and the BLS scheme -/

/-- The operations of the external `Pairing` trait that
`aggregate_sig.rs` uses.  `G1`/`G2` are the source groups, `TF` the
target field, `S` the scalar field. -/
structure PairingOps (S G1 G2 TF : Type) where
  hashToG1 : List Nat → G1
  g1smul : G1 → S → G1
  g2smul : G2 → S → G2
  g1add : G1 → G1 → G1
  g2add : G2 → G2 → G2
  g2one : G2
  g2zero : G2
  tfzero : TF
  tfone : TF
  tfmul : TF → TF → TF
  pairV : G1 → G2 → TF

variable {S G1 G2 TF : Type}

/-- `SecretKey::sign`: `H(m)^sk` (no signing randomness). -/
def blsSign (P : PairingOps S G1 G2 TF) (sk : S) (m : List Nat) : G1 :=
  P.g1smul (P.hashToG1 m) sk

/-- `PublicKey::from_secret`: `g2^sk`. -/
def fromSecret (P : PairingOps S G1 G2 TF) (sk : S) : G2 :=
  P.g2smul P.g2one sk

/-- `PublicKey::verify`: the two pairings are computed by `join` (a
deterministic parallel pair) and compared. -/
def blsVerify [DecidableEq TF] (P : PairingOps S G1 G2 TF)
    (pk : G2) (m : List Nat) (sig : G1) : Bool :=
  P.pairV sig P.g2one == P.pairV (P.hashToG1 m) pk

/-- `Signature::aggregate`: `G_1` point addition. -/
def aggregate (P : PairingOps S G1 G2 TF) (s1 s2 : G1) : G1 :=
  P.g1add s1 s2

/-- Rayon's `par_iter().fold(zero, |_acc, x| step x).reduce(one, comb)`
pipeline over a scheduler-chosen chunking of the input.  The fold closure
in the source discards its accumulator, which this embedding reproduces:
a chunk's accumulator is `step` of its last element (or `zero` for an
empty chunk). -/
def parFoldReduce {α β : Type} (zero one : β) (step : α → β) (comb : β → β → β)
    (chunks : List (List α)) : β :=
  (chunks.map (fun c => c.foldl (fun _acc x => step x) zero)).foldl comb one

/-- `verify_aggregate_sig`: reject on duplicate messages, else compare
`e(signature, g2)` with the rayon fold/reduce combination of the
per-pair pairings.  `chunks` is the scheduler's partition of the slice
`m_pk_pairs = chunks.flatten`. -/
def verifyAggregateSig [DecidableEq TF] (shaFn : List Nat → List Nat)
    (P : PairingOps S G1 G2 TF)
    (chunks : List (List (List Nat × G2))) (sig : G1) : Bool :=
  if hasDuplicates shaFn (chunks.flatten.map Prod.fst) then false
  else
    P.pairV sig P.g2one ==
      parFoldReduce P.tfzero P.tfone (fun x => P.pairV (P.hashToG1 x.1) x.2)
        P.tfmul chunks

/-- `verify_aggregate_sig_trusted_keys`: rayon-sum the public keys
(`fold(zero_point, |_sum, x| x.0).reduce(zero_point, plus_point)`),
then one two-pairing comparison.  `chunks` is the scheduler's partition
of the slice `pks = chunks.flatten`. -/
def verifyAggregateSigTrustedKeys [DecidableEq TF] (P : PairingOps S G1 G2 TF)
    (m : List Nat) (chunks : List (List G2)) (sig : G1) : Bool :=
  P.pairV sig P.g2one ==
    P.pairV (P.hashToG1 m)
      (parFoldReduce P.g2zero P.g2zero (fun pk => pk) P.g2add chunks)

/-- The sequential pairing product the specification prescribes for
`verify_aggregate_sig`: `∏ i, e(H(message_i), pk_i)` over the flat pair
list. -/
def seqProduct (P : PairingOps S G1 G2 TF) (pairs : List (List Nat × G2)) : TF :=
  (pairs.map (fun x => P.pairV (P.hashToG1 x.1) x.2)).foldl P.tfmul P.tfone

/-- The sequential public-key sum the specification prescribes for
`verify_aggregate_sig_trusted_keys`. -/
def seqSum (P : PairingOps S G1 G2 TF) (pks : List G2) : G2 :=
  pks.foldl P.g2add P.g2zero

/-! ## A concrete faithful instantiation

Groups of prime order 5 in exponent representation: a `G_1`/`G_2` point
is its discrete logarithm in `ZMod 5` (the generator `one_point` is `1`,
`plus_point` is `+`, `mul_by_scalar` is `*`).  The target field is
`ZMod 11`; the pairing sends `(a, b)` to `3 ^ (a * b)`, landing in the
order-5 subgroup generated by `3` (since `3 ^ 5 = 243 = 1` in `ZMod 11`).
This realises every algebraic law the `Pairing` trait promises,
including bilinearity. -/

/-- The concrete pairing map `(a, b) ↦ 3 ^ (a b)` into `ZMod 11`. -/
def cPair (a b : ZMod 5) : ZMod 11 := (3 : ZMod 11) ^ (a.val * b.val)

/-- The concrete `PairingOps` instantiation, parameterised by the
external `hash_to_group` function. -/
def cModel (hashFn : List Nat → ZMod 5) : PairingOps (ZMod 5) (ZMod 5) (ZMod 5) (ZMod 11) where
  hashToG1 := hashFn
  g1smul := fun a s => a * s
  g2smul := fun a s => a * s
  g1add := fun a b => a + b
  g2add := fun a b => a + b
  g2one := 1
  g2zero := 0
  tfzero := 0
  tfone := 1
  tfmul := fun a b => a * b
  pairV := cPair

/-- A concrete `hash_to_group` sending `[0]` to `1` and all else to `2`. -/
def hf0 : List Nat → ZMod 5 := fun m => if m = [0] then 1 else 2

/-- A concrete constant `hash_to_group`. -/
def hf1 : List Nat → ZMod 5 := fun _ => 1

/-- A concrete stand-in for SHA-512 under which distinct test messages
keep distinct digests. -/
def sha0 : List Nat → List Nat := fun m => m

/-- A concrete stand-in for SHA-512 whose digests are 64 bytes long and
differ only in the final byte: `m ↦ 0^63 ++ m`. -/
def sha63 : List Nat → List Nat := fun m => List.replicate 63 0 ++ m

/-! ## Byte encoding and decoding

The scalar/point codecs (`P::scalar_to_bytes`, `P::bytes_to_scalar`,
`G::curve_to_bytes`, `G::bytes_to_curve`) are external capabilities of
the pairing engine.  An encoder is a total function to a fixed-length
byte string; a decoder consumes exactly its fixed length from the front
of the input (the `Cursor` in the Rust signatures) and is fallible
(`Option`). -/

/-- `SecretKey::to_bytes` (BLS): `P::scalar_to_bytes(self.0)`. -/
def blsSecretKeyToBytes {F : Type} (s2b : F → List Nat) (k : F) : List Nat := s2b k

/-- `SecretKey::from_bytes` (BLS): `P::bytes_to_scalar(cursor)` reads
the scalar-length prefix. -/
def blsSecretKeyFromBytes {F : Type} (b2s : List Nat → Option F) (sl : Nat)
    (bytes : List Nat) : Option F :=
  b2s (bytes.take sl)

/-- `PublicKey::to_bytes` (BLS): `P::G_2::curve_to_bytes(self.0)`. -/
def blsPublicKeyToBytes {P2 : Type} (g2enc : P2 → List Nat) (pk : P2) : List Nat := g2enc pk

/-- `PublicKey::from_bytes` (BLS): `P::G_2::bytes_to_curve(cursor)`. -/
def blsPublicKeyFromBytes {P2 : Type} (g2dec : List Nat → Option P2) (gl : Nat)
    (bytes : List Nat) : Option P2 :=
  g2dec (bytes.take gl)

/-- `Signature::to_bytes` (BLS): `P::G_1::curve_to_bytes(self.0)`. -/
def blsSignatureToBytes {P1 : Type} (g1enc : P1 → List Nat) (s : P1) : List Nat := g1enc s

/-- `Signature::from_bytes` (BLS): `P::G_1::bytes_to_curve(cursor)`. -/
def blsSignatureFromBytes {P1 : Type} (g1dec : List Nat → Option P1) (gl : Nat)
    (bytes : List Nat) : Option P1 :=
  g1dec (bytes.take gl)

/-! ## The PS multi-attribute scheme (`ps_sig/src/secret.rs`) -/

/-- The error type of `ps_sig`.  The `errors` module itself is not among
the provided sources; the two variants are exactly the ones
`secret.rs` constructs (`SignatureError(SecretKeyLengthError)` and
`SignatureError(FieldDecodingError)`), matching the spec's taxonomy of
arity/length errors versus field-decoding errors. -/
inductive PsError where
  | secretKeyLengthError : PsError
  | fieldDecodingError : PsError
deriving DecidableEq

/-- `ps_sig::SecretKey`: the vector `y_1..y_n` of scalars plus the
scalar `x` (fields `.0` and `.1` of the Rust struct). -/
structure PsSecretKey (F : Type) where
  ys : List F
  x : F
deriving DecidableEq

/-- `ps_sig::Signature`: a pair of `G_1` points, in the exponent
representation a pair of scalars. -/
structure PsSignature (F : Type) where
  a : F
  b : F
deriving DecidableEq

/-- `ps_sig::SecretKey::generate`: draw `n` scalars for the vector, then
one more for `x`.  The generator is `rng` read at successive positions
starting from `pos`; the returned counter is the next unused position. -/
def psGenerate {F : Type} (n : Nat) (rng : Nat → F) (pos : Nat) : PsSecretKey F × Nat :=
  (⟨(List.range n).map (fun i => rng (pos + i)), rng (pos + n)⟩, pos + n + 1)

/-- `ps_sig::SecretKey::sign_known_message`.  The arity check
`ms.len() > ys.len()` runs first and returns the length error with the
randomness counter untouched; otherwise
`z = Σ (m_i · y_i) + x` (fold over `ms.zip ys`), one fresh scalar `r`
is drawn, `h = g1 · r`, and the signature is `(h, h · z)` (in exponent
representation of `G_1`). -/
def psSignKnownMessage {F : Type} [CommRing F] (sk : PsSecretKey F) (ms : List F)
    (rng : Nat → F) (pos : Nat) : Except PsError (PsSignature F) × Nat :=
  if sk.ys.length < ms.length then
    (Except.error PsError.secretKeyLengthError, pos)
  else
    let z := ((ms.zip sk.ys).foldl (fun acc p => acc + p.1 * p.2) 0) + sk.x
    let h := (1 : F) * rng pos
    (Except.ok ⟨h, h * z⟩, pos + 1)

/-- `ps_sig::SecretKey::to_bytes`: the concatenation of the encodings of
`y_1..y_n` followed by the encoding of `x`. -/
def psToBytes {F : Type} (s2b : F → List Nat) (sk : PsSecretKey F) : List Nat :=
  (sk.ys.map s2b).flatten ++ s2b sk.x

/-- The byte block `bytes[i*sl .. i*sl + sl]` read by the decode loop. -/
def sliceBlock (sl : Nat) (bytes : List Nat) (i : Nat) : List Nat :=
  (bytes.drop (i * sl)).take sl

/-- Decode a list of byte blocks in order, failing on the first block the
scalar decoder rejects (the early `return` of the Rust loop). -/
def decodeBlocks {F : Type} (b2s : List Nat → Option F) : List (List Nat) → Option (List F)
  | [] => some []
  | blk :: rest =>
    match b2s blk with
    | none => none
    | some v =>
      match decodeBlocks b2s rest with
      | none => none
      | some vs => some (v :: vs)

/-- `ps_sig::SecretKey::from_bytes`: reject lengths that are zero,
shorter than one scalar block, or not block-aligned; otherwise decode
`l / sl - 1` vector scalars from consecutive blocks and the final scalar
from the trailing block `bytes[(l - sl)..]`. -/
def psFromBytes {F : Type} (sl : Nat) (b2s : List Nat → Option F)
    (bytes : List Nat) : Except PsError (PsSecretKey F) :=
  if bytes.length = 0 ∨ bytes.length < sl ∨ bytes.length % sl ≠ 0 then
    Except.error PsError.secretKeyLengthError
  else
    match decodeBlocks b2s
        ((List.range (bytes.length / sl - 1)).map (sliceBlock sl bytes)) with
    | none => Except.error PsError.fieldDecodingError
    | some vs =>
      match b2s (bytes.drop (bytes.length - sl)) with
      | none => Except.error PsError.fieldDecodingError
      | some x => Except.ok ⟨vs, x⟩

/-! ## Concrete codecs for witnesses

A one-byte codec for the order-5 exponent model: a value encodes as the
singleton list holding its canonical representative. -/

/-- Concrete scalar/point encoder for `ZMod 5`. -/
def cEnc (s : ZMod 5) : List Nat := [s.val]

/-- Concrete scalar/point decoder for `ZMod 5`. -/
def cDec (b : List Nat) : Option (ZMod 5) :=
  match b with
  | [v] => some ((v : Nat) : ZMod 5)
  | _ => none

/-- A concrete decoder that also rejects non-canonical one-byte blocks,
exercising the field-decoding failure paths. -/
def cDecStrict (b : List Nat) : Option (ZMod 5) :=
  match b with
  | [v] => if v < 5 then some ((v : Nat) : ZMod 5) else none
  | _ => none

/-! ## Theorems -/

theorem sorted_adjacentDup_false_iff :
    ∀ l : List (List Nat), List.Sorted lexLe l → (adjacentDup l = false ↔ l.Nodup) := by
  intro l
  induction l with
  | nil => intro _; simp [adjacentDup]
  | cons a t ih =>
    intro hs
    cases t with
    | nil => simp [adjacentDup]
    | cons b t2 =>
      have hs' : List.Sorted lexLe (b :: t2) := hs.of_cons
      have hab : lexLe a b := (List.sorted_cons.mp hs).1 b (by simp)
      simp only [adjacentDup, Bool.or_eq_false_iff]
      constructor
      · rintro ⟨h1, h2⟩
        have hane : a ≠ b := by simpa using h1
        have ht : (b :: t2).Nodup := (ih hs').mp h2
        refine List.nodup_cons.mpr ⟨?_, ht⟩
        intro hmem
        rcases List.mem_cons.mp hmem with h | h
        · exact hane h
        · have hba : lexLe b a := (List.sorted_cons.mp hs').1 a h
          exact hane (lexLeB_antisymm a b hab hba)
      · intro hnd
        rcases List.nodup_cons.mp hnd with ⟨hmem, ht⟩
        refine ⟨?_, (ih hs').mpr ht⟩
        have hane : a ≠ b := fun h => hmem (h ▸ List.mem_cons_self b t2)
        simpa using hane

theorem hasDuplicates_iff_not_nodup (shaFn : List Nat → List Nat)
    (msgs : List (List Nat)) :
    hasDuplicates shaFn msgs = true ↔ ¬ (msgs.map (hashKey shaFn)).Nodup := by
  unfold hasDuplicates
  have hsort := List.sorted_insertionSort lexLe (msgs.map (hashKey shaFn))
  have hperm := List.perm_insertionSort lexLe (msgs.map (hashKey shaFn))
  rw [← hperm.nodup_iff, ← sorted_adjacentDup_false_iff _ hsort]
  cases h : adjacentDup (List.insertionSort lexLe (msgs.map (hashKey shaFn))) <;> simp [h]

theorem hasDuplicates_iff_exists_key_collision (shaFn : List Nat → List Nat)
    (msgs : List (List Nat)) :
    hasDuplicates shaFn msgs = true ↔
      ∃ i j, ∃ (hi : i < msgs.length) (hj : j < msgs.length), i ≠ j ∧
        hashKey shaFn msgs[i] = hashKey shaFn msgs[j] := by
  rw [hasDuplicates_iff_not_nodup, List.nodup_iff_injective_getElem,
    Function.not_injective_iff]
  constructor
  · rintro ⟨a, b, hfab, hne⟩
    have ha : a.val < msgs.length := by simpa using a.isLt
    have hb : b.val < msgs.length := by simpa using b.isLt
    refine ⟨a.val, b.val, ha, hb, ?_, ?_⟩
    · intro h; exact hne (Fin.ext h)
    · simpa [List.getElem_map] using hfab
  · rintro ⟨i, j, hi, hj, hne, heq⟩
    refine ⟨⟨i, by simpa using hi⟩, ⟨j, by simpa using hj⟩, ?_, ?_⟩
    · simpa [List.getElem_map] using heq
    · intro h
      exact hne (congrArg Fin.val h)

/-- Auxiliary: a left fold by target-field multiplication that has
already reached `0` stays at `0`. -/
theorem foldl_mul_zero : ∀ l : List (ZMod 11),
    List.foldl (fun a b => a * b) (0 : ZMod 11) l = 0 := by
  intro l
  induction l with
  | nil => rfl
  | cons x t ih => simpa [List.foldl_cons] using ih

/-- C3: a batch in which two entries at distinct positions carry
byte-identical messages is rejected by `verify_aggregate_sig`, for every
pairing instantiation, every hash, every signature and every scheduler
chunking of the pair slice. -/
theorem verify_aggregate_sig_rejects_duplicate_messages
    {S G1 G2 TF : Type} [DecidableEq TF] (shaFn : List Nat → List Nat)
    (P : PairingOps S G1 G2 TF) (chunks : List (List (List Nat × G2))) (sig : G1)
    (i j : Nat) (hi : i < chunks.flatten.length) (hj : j < chunks.flatten.length)
    (hne : i ≠ j) (heq : (chunks.flatten[i]).1 = (chunks.flatten[j]).1) :
    verifyAggregateSig shaFn P chunks sig = false := by
  have hdup : hasDuplicates shaFn (chunks.flatten.map Prod.fst) = true := by
    rw [hasDuplicates_iff_exists_key_collision]
    refine ⟨i, j, by rw [List.length_map]; exact hi,
      by rw [List.length_map]; exact hj, hne, ?_⟩
    simp only [List.getElem_map]
    rw [heq]
  simp only [verifyAggregateSig, hdup]
  rfl

/-- C3 witness: a concrete two-entry batch with a repeated message is
rejected. -/
theorem verify_aggregate_sig_rejects_duplicate_messages_witness :
    verifyAggregateSig sha0 (cModel hf0) [[([0], 1), ([0], 2)]] 3 = false :=
  verify_aggregate_sig_rejects_duplicate_messages sha0 (cModel hf0)
    [[([0], 1), ([0], 2)]] 3 0 1 (by decide) (by decide) (by decide) (by decide)

/-- C4: the duplicate check fires exactly when two entries at distinct
positions have digests agreeing on the first 63 of the 64 digest bytes,
and whenever it fires `verify_aggregate_sig` returns `false` whatever
the pairing data, the chunking and the signature are. -/
theorem duplicate_check_compares_truncated_digests :
    (∀ (shaFn : List Nat → List Nat) (msgs : List (List Nat)),
      hasDuplicates shaFn msgs = true ↔
        ∃ i j, ∃ (hi : i < msgs.length) (hj : j < msgs.length), i ≠ j ∧
          (shaFn msgs[i]).take 63 = (shaFn msgs[j]).take 63)
    ∧ (∀ (S G1 G2 TF : Type) [DecidableEq TF] (shaFn : List Nat → List Nat)
        (P : PairingOps S G1 G2 TF) (chunks : List (List (List Nat × G2))) (sig : G1),
        hasDuplicates shaFn (chunks.flatten.map Prod.fst) = true →
        verifyAggregateSig shaFn P chunks sig = false) := by
  constructor
  · intro shaFn msgs
    simpa [hashKey] using hasDuplicates_iff_exists_key_collision shaFn msgs
  · intro S G1 G2 TF _ shaFn P chunks sig hdup
    simp only [verifyAggregateSig, hdup]
    rfl

/-- C4 witness: two distinct one-byte messages whose digests differ only
in the last of the 64 bytes are treated as duplicates, and the batch is
rejected. -/
theorem duplicate_check_compares_truncated_digests_witness :
    hasDuplicates sha63 [[0], [1]] = true ∧
    verifyAggregateSig sha63 (cModel hf0) [[([0], 1), ([1], 1)]] 0 = false :=
  ⟨(duplicate_check_compares_truncated_digests.1 sha63 [[0], [1]]).mpr
      ⟨0, 1, by decide, by decide, by decide, by decide⟩,
   duplicate_check_compares_truncated_digests.2 (ZMod 5) (ZMod 5) (ZMod 5) (ZMod 11)
      sha63 (cModel hf0) [[([0], 1), ([1], 1)]] 0 (by decide)⟩

/-- C1: `verify_aggregate_sig` is not chunking-independent.  The same
duplicate-free two-pair slice with the same valid aggregate signature is
accepted under the one-pair-per-chunk schedule and rejected when the
scheduler folds both pairs in one chunk, because the fold closure
`|_sum, x| e(H(m), pk)` discards its accumulator and a chunk contributes
only its last pair's pairing.  `e(signature, g2)` does equal the
sequential pairing product, so the sequential specification accepts. -/
theorem verify_aggregate_sig_depends_on_chunking :
    verifyAggregateSig sha0 (cModel hf0) [[([0], 1)], [([1], 1)]] 3 = true ∧
    verifyAggregateSig sha0 (cModel hf0) [[([0], 1), ([1], 1)]] 3 = false ∧
    cPair 3 (cModel hf0).g2one = seqProduct (cModel hf0) [([0], 1), ([1], 1)] ∧
    ([[([0], 1)], [([1], 1)]] : List (List (List Nat × ZMod 5))).flatten
      = ([[([0], 1), ([1], 1)]] : List (List (List Nat × ZMod 5))).flatten := by
  refine ⟨by decide, by decide, by decide, by decide⟩

/-- C2: `verify_aggregate_sig_trusted_keys` is not chunking-independent.
The same two public keys with the same valid aggregate signature over
one message are accepted under one-key-per-chunk scheduling and rejected
when both keys land in one chunk, because the fold closure
`|_sum, x| x.0` discards its accumulator and a chunk contributes only
its last key.  `e(signature, g2)` does equal `e(H(m), S)` for the
sequential key sum `S`, so the sequential specification accepts. -/
theorem trusted_keys_verify_depends_on_chunking :
    verifyAggregateSigTrustedKeys (cModel hf1) [0] [[1], [2]] 3 = true ∧
    verifyAggregateSigTrustedKeys (cModel hf1) [0] [[1, 2]] 3 = false ∧
    cPair 3 (cModel hf1).g2one
      = cPair ((cModel hf1).hashToG1 [0]) (seqSum (cModel hf1) [1, 2]) ∧
    ([[1], [2]] : List (List (ZMod 5))).flatten
      = ([[1, 2]] : List (List (ZMod 5))).flatten := by
  refine ⟨by decide, by decide, by decide, by decide⟩

/-- C5: for every pairing instantiation whose pairing is bilinear in the
usual sense `e(a·s, b) = e(a, b·s)`, every secret key and every message,
`verify(from_secret(sk), m, sign(sk, m))` holds. -/
theorem sign_verify_correct {S G1 G2 TF : Type} [DecidableEq TF]
    (P : PairingOps S G1 G2 TF)
    (hbil : ∀ (a : G1) (s : S) (b : G2),
      P.pairV (P.g1smul a s) b = P.pairV a (P.g2smul b s)) :
    ∀ (sk : S) (m : List Nat),
      blsVerify P (fromSecret P sk) m (blsSign P sk m) = true := by
  intro sk m
  unfold blsVerify blsSign fromSecret
  rw [hbil]
  exact beq_self_eq_true _

/-- C5 witness: the concrete order-5 model satisfies the bilinearity
hypothesis, and a concrete sign/verify round succeeds. -/
theorem sign_verify_correct_witness :
    blsVerify (cModel hf0) (fromSecret (cModel hf0) 3) [0]
      (blsSign (cModel hf0) 3 [0]) = true :=
  sign_verify_correct (cModel hf0) (by decide) 3 [0]

/-- C6: `Signature::aggregate` (G1 point addition) is associative and
commutative, so any grouping and order of aggregation agree. -/
theorem aggregate_assoc_comm :
    ∀ (hashFn : List Nat → ZMod 5) (s1 s2 s3 : ZMod 5),
      aggregate (cModel hashFn) (aggregate (cModel hashFn) s1 s2) s3
        = aggregate (cModel hashFn) s1 (aggregate (cModel hashFn) s2 s3) ∧
      aggregate (cModel hashFn) s1 (aggregate (cModel hashFn) s2 s3)
        = aggregate (cModel hashFn) s3 (aggregate (cModel hashFn) s1 s2) ∧
      aggregate (cModel hashFn) s1 s2 = aggregate (cModel hashFn) s2 s1 := by
  intro hashFn s1 s2 s3
  refine ⟨add_assoc s1 s2 s3, ?_, add_comm s1 s2⟩
  show s1 + (s2 + s3) = s3 + (s1 + s2)
  ring

/-- C10 counterexample: on the empty batch with the `G_1`-identity
signature — whose pairing with `g2` is the target-field one — the code
still returns `false` under the chunking rayon actually produces for an
empty slice (a single empty chunk whose fold emits the target-field
zero seed). -/
theorem empty_batch_identity_signature_rejected :
    verifyAggregateSig sha0 (cModel hf0) [[]] 0 = false ∧
    cPair 0 (cModel hf0).g2one = (cModel hf0).tfone := by
  refine ⟨by decide, by decide⟩

/-- C10 (amended): the duplicate check on zero messages never fires, but
under every schedulable chunking of the empty slice (a nonempty list of
empty chunks — rayon's fold emits one accumulator per leaf even when the
leaf consumed no items, seeded with the target-field zero) the pairing
product is zero, so `verify_aggregate_sig` of the empty batch returns
`false` for every signature, including the `G_1` identity. -/
theorem empty_batch_every_signature_rejected :
    (∀ shaFn : List Nat → List Nat, hasDuplicates shaFn [] = false)
    ∧ (∀ (shaFn : List Nat → List Nat) (hashFn : List Nat → ZMod 5)
        (chunks : List (List (List Nat × ZMod 5))) (sig : ZMod 5),
        chunks.flatten = [] → chunks ≠ [] →
        verifyAggregateSig shaFn (cModel hashFn) chunks sig = false) := by
  constructor
  · intro shaFn; rfl
  · intro shaFn hashFn chunks sig hflat hne
    cases chunks with
    | nil => exact absurd rfl hne
    | cons c0 cs =>
      have hc0 : c0 = [] := by
        have hall := List.flatten_eq_nil_iff.mp hflat
        exact hall c0 (by simp)
      subst hc0
      have hdup : hasDuplicates shaFn
          ((([] : List (List Nat × ZMod 5)) :: cs).flatten.map Prod.fst) = false := by
        rw [hflat]
        rfl
      unfold verifyAggregateSig
      rw [hdup, if_neg Bool.false_ne_true]
      have hprod : parFoldReduce (0 : ZMod 11) 1
          (fun x : List Nat × ZMod 5 => cPair (hashFn x.1) x.2) (fun a b => a * b)
          (([] : List (List Nat × ZMod 5)) :: cs) = 0 := by
        unfold parFoldReduce
        rw [List.map_cons, List.foldl_cons, List.foldl_nil, mul_zero]
        exact foldl_mul_zero _
      show (cPair sig 1 == parFoldReduce (0 : ZMod 11) 1
          (fun x : List Nat × ZMod 5 => cPair (hashFn x.1) x.2) (fun a b => a * b)
          (([] : List (List Nat × ZMod 5)) :: cs)) = false
      rw [hprod]
      revert sig
      decide

/-- C10 witness: one empty fold chunk, a nonidentity signature: the
empty batch reports no duplicate and the verification rejects. -/
theorem empty_batch_every_signature_rejected_witness :
    hasDuplicates sha0 [] = false ∧
    verifyAggregateSig sha0 (cModel hf1) [[]] 2 = false :=
  ⟨empty_batch_every_signature_rejected.1 sha0,
   empty_batch_every_signature_rejected.2 sha0 hf1 [[]] 2 (by decide) (by decide)⟩

/-- C7: against a key generated with capacity `n`, `sign_known_message`
with more than `n` attributes fails with the typed length error and
leaves the randomness counter untouched (no scalar is drawn before the
arity check), while with at most `n` attributes it succeeds after
drawing exactly one scalar. -/
theorem sign_known_message_arity {F : Type} [CommRing F]
    (n : Nat) (rng1 : Nat → F) (p1 : Nat) (ms : List F) (rng2 : Nat → F) (p2 : Nat) :
    (n < ms.length →
      psSignKnownMessage (psGenerate n rng1 p1).1 ms rng2 p2
        = (Except.error PsError.secretKeyLengthError, p2))
    ∧ (ms.length ≤ n →
      ∃ sig, psSignKnownMessage (psGenerate n rng1 p1).1 ms rng2 p2
        = (Except.ok sig, p2 + 1)) := by
  have hlen : ((psGenerate n rng1 p1).1).ys.length = n := by
    simp [psGenerate]
  constructor
  · intro h
    unfold psSignKnownMessage
    rw [hlen, if_pos h]
  · intro h
    refine ⟨⟨(1 : F) * rng2 p2,
      ((1 : F) * rng2 p2) *
        (((ms.zip ((psGenerate n rng1 p1).1).ys).foldl
            (fun acc p => acc + p.1 * p.2) 0) + ((psGenerate n rng1 p1).1).x)⟩, ?_⟩
    unfold psSignKnownMessage
    rw [hlen, if_neg (Nat.not_lt.mpr h)]

/-- C7 witness: capacity 1; a two-attribute list errors without moving
the randomness counter, a one-attribute list signs and draws once. -/
theorem sign_known_message_arity_witness :
    psSignKnownMessage ((psGenerate 1 (fun _ => (0 : ZMod 5)) 0).1) [0, 0] (fun _ => 0) 7
      = (Except.error PsError.secretKeyLengthError, 7) ∧
    ∃ sig, psSignKnownMessage ((psGenerate 1 (fun _ => (0 : ZMod 5)) 0).1) [0] (fun _ => 0) 7
      = (Except.ok sig, 8) :=
  ⟨(sign_known_message_arity 1 (fun _ => 0) 0 [0, 0] (fun _ => 0) 7).1 (by decide),
   (sign_known_message_arity 1 (fun _ => 0) 0 [0] (fun _ => 0) 7).2 (by decide)⟩

/-- Auxiliary: a successful `decodeBlocks` run decodes every block. -/
theorem decodeBlocks_success_facts {F : Type} (b2s : List Nat → Option F) :
    ∀ (blocks : List (List Nat)) (vs : List F),
      decodeBlocks b2s blocks = some vs →
      vs.length = blocks.length ∧ ∀ b ∈ blocks, (b2s b).isSome = true := by
  intro blocks
  induction blocks with
  | nil =>
    intro vs h
    simp only [decodeBlocks] at h
    cases h
    exact ⟨rfl, by simp⟩
  | cons blk rest ih =>
    intro vs h
    simp only [decodeBlocks] at h
    cases hb : b2s blk with
    | none => rw [hb] at h; cases h
    | some v =>
      rw [hb] at h
      cases hr : decodeBlocks b2s rest with
      | none => rw [hr] at h; cases h
      | some ws =>
        rw [hr] at h
        cases h
        obtain ⟨hl, hall⟩ := ih ws hr
        refine ⟨by simp [hl], ?_⟩
        intro b hmem
        rcases List.mem_cons.mp hmem with rfl | hmem2
        · simp [hb]
        · exact hall b hmem2

/-- Auxiliary: if the decoder accepts every block, `decodeBlocks`
succeeds with one scalar per block. -/
theorem decodeBlocks_total {F : Type} (b2s : List Nat → Option F) :
    ∀ blocks : List (List Nat),
      (∀ b ∈ blocks, (b2s b).isSome = true) →
      ∃ vs, decodeBlocks b2s blocks = some vs ∧ vs.length = blocks.length := by
  intro blocks
  induction blocks with
  | nil => intro _; exact ⟨[], rfl, rfl⟩
  | cons blk rest ih =>
    intro hall
    obtain ⟨v, hv⟩ := Option.isSome_iff_exists.mp (hall blk (by simp))
    obtain ⟨ws, hws, hwl⟩ := ih (fun b hb => hall b (List.mem_cons_of_mem _ hb))
    refine ⟨v :: ws, ?_, by simp [hwl]⟩
    simp only [decodeBlocks, hv, hws]

/-- C8: PS `SecretKey::from_bytes` returns the length error exactly when
the input length is not a positive multiple of the scalar length; an
accepted input of `n + 1` blocks decodes `n` vector scalars plus one
final scalar when every block is a valid encoding, and fails with the
field-decoding error when some block is invalid. -/
theorem ps_from_bytes_length_and_blocks {F : Type} (sl : Nat) (hsl : 0 < sl)
    (b2s : List Nat → Option F) (bytes : List Nat) :
    (psFromBytes sl b2s bytes = Except.error PsError.secretKeyLengthError
        ↔ ¬ ∃ k, 0 < k ∧ bytes.length = k * sl)
    ∧ ∀ n, bytes.length = (n + 1) * sl →
        ((∀ i, i ≤ n → (b2s (sliceBlock sl bytes i)).isSome = true) →
          ∃ vs x, psFromBytes sl b2s bytes = Except.ok ⟨vs, x⟩ ∧ vs.length = n)
        ∧ ((∃ i, i ≤ n ∧ b2s (sliceBlock sl bytes i) = none) →
          psFromBytes sl b2s bytes = Except.error PsError.fieldDecodingError) := by
  have hcond : ∀ k, 0 < k → bytes.length = k * sl →
      ¬ (bytes.length = 0 ∨ bytes.length < sl ∨ bytes.length % sl ≠ 0) := by
    intro k hk hkl
    rintro (h | h | h)
    · rw [hkl] at h
      exact Nat.mul_ne_zero (by omega) (by omega) h
    · rw [hkl] at h
      have hle : sl ≤ k * sl := by
        calc sl = 1 * sl := (one_mul sl).symm
        _ ≤ k * sl := Nat.mul_le_mul_right sl hk
      omega
    · rw [hkl] at h
      exact h (Nat.mul_mod_left k sl)
  constructor
  · constructor
    · intro hres
      rintro ⟨k, hk, hkl⟩
      have hc := hcond k hk hkl
      unfold psFromBytes at hres
      rw [if_neg hc] at hres
      cases hdec : decodeBlocks b2s
          ((List.range (bytes.length / sl - 1)).map (sliceBlock sl bytes)) with
      | none => rw [hdec] at hres; simp at hres
      | some vs =>
        rw [hdec] at hres
        cases hx : b2s (bytes.drop (bytes.length - sl)) with
        | none => rw [hx] at hres; simp at hres
        | some x => rw [hx] at hres; simp at hres
    · intro hnex
      have hc : bytes.length = 0 ∨ bytes.length < sl ∨ bytes.length % sl ≠ 0 := by
        by_contra hc'
        push_neg at hc'
        obtain ⟨h0, h1, h2⟩ := hc'
        exact hnex ⟨bytes.length / sl, Nat.div_pos h1 hsl,
          (Nat.div_mul_cancel (Nat.dvd_of_mod_eq_zero h2)).symm⟩
      unfold psFromBytes
      rw [if_pos hc]
  · intro n hlen
    have hc := hcond (n + 1) (Nat.succ_pos n) hlen
    have hdiv : bytes.length / sl = n + 1 := by
      rw [hlen]
      exact Nat.mul_div_cancel _ hsl
    have hvlen : bytes.length / sl - 1 = n := by
      omega
    have hlast : bytes.drop (bytes.length - sl) = sliceBlock sl bytes n := by
      have h1 : bytes.length - sl = n * sl := by
        rw [hlen, Nat.succ_mul]
        omega
      have hlen2 : (bytes.drop (n * sl)).length = sl := by
        rw [List.length_drop, hlen, Nat.succ_mul]
        omega
      rw [h1]
      exact (List.take_of_length_le (Nat.le_of_eq hlen2)).symm
    constructor
    · intro hall
      have hallv : ∀ b ∈ (List.range (bytes.length / sl - 1)).map (sliceBlock sl bytes),
          (b2s b).isSome = true := by
        intro b hb
        rw [List.mem_map] at hb
        obtain ⟨i, hi, rfl⟩ := hb
        rw [List.mem_range, hvlen] at hi
        exact hall i (Nat.le_of_lt hi)
      obtain ⟨vs, hvs, hvl⟩ := decodeBlocks_total b2s _ hallv
      have hlastSome : (b2s (bytes.drop (bytes.length - sl))).isSome = true := by
        rw [hlast]
        exact hall n (Nat.le_refl n)
      obtain ⟨x, hx⟩ := Option.isSome_iff_exists.mp hlastSome
      refine ⟨vs, x, ?_, ?_⟩
      · unfold psFromBytes
        rw [if_neg hc, hvs, hx]
      · rw [hvl, List.length_map, List.length_range, hvlen]
    · rintro ⟨i, hile, hinone⟩
      cases hdec : decodeBlocks b2s
          ((List.range (bytes.length / sl - 1)).map (sliceBlock sl bytes)) with
      | none =>
        unfold psFromBytes
        rw [if_neg hc, hdec]
      | some vs =>
        have hallv := (decodeBlocks_success_facts b2s _ vs hdec).2
        have hieq : i = n := by
          by_contra hine
          have hilt : i < n := Nat.lt_of_le_of_ne hile hine
          have hsome := hallv (sliceBlock sl bytes i)
            (List.mem_map.mpr ⟨i, List.mem_range.mpr (by rw [hvlen]; exact hilt), rfl⟩)
          rw [hinone] at hsome
          simp at hsome
        subst hieq
        unfold psFromBytes
        rw [if_neg hc, hdec, hlast, hinone]

/-- C8 witness: with the concrete one-byte codecs, the empty input is a
length error, a two-block input decodes to one vector scalar plus the
final scalar, and an input whose second block is not a valid scalar
encoding is a field-decoding error. -/
theorem ps_from_bytes_length_and_blocks_witness :
    psFromBytes 1 cDec [] = Except.error PsError.secretKeyLengthError ∧
    (∃ vs x, psFromBytes 1 cDec [2, 3] = Except.ok ⟨vs, x⟩ ∧ vs.length = 1) ∧
    psFromBytes 1 cDecStrict [2, 7] = Except.error PsError.fieldDecodingError :=
  ⟨((ps_from_bytes_length_and_blocks 1 (by decide) cDec []).1).mpr
      (by rintro ⟨k, hk, hkl⟩; simp at hkl; omega),
   ((ps_from_bytes_length_and_blocks 1 (by decide) cDec [2, 3]).2 1 (by decide)).1
      (by decide),
   ((ps_from_bytes_length_and_blocks 1 (by decide) cDecStrict [2, 7]).2 1 (by decide)).2
      ⟨1, by decide, by decide⟩⟩

/-- Auxiliary: the concatenated encoding of `n` scalars is `n` blocks
long. -/
theorem flatten_map_enc_length {F : Type} (sl : Nat) (s2b : F → List Nat)
    (H2 : ∀ s, (s2b s).length = sl) :
    ∀ ys : List F, ((ys.map s2b).flatten).length = ys.length * sl := by
  intro ys
  induction ys with
  | nil => simp
  | cons y t ih =>
    rw [List.map_cons, List.flatten_cons, List.length_append, H2, ih,
      List.length_cons, Nat.succ_mul, Nat.add_comm]

/-- Auxiliary: slicing the concatenated encoding of `ys` (followed by
anything) at block `i < ys.length` recovers the encoding of `ys[i]`. -/
theorem blocks_of_encoding {F : Type} (sl : Nat) (s2b : F → List Nat)
    (H2 : ∀ s, (s2b s).length = sl) :
    ∀ (ys : List F) (rest : List Nat),
      (List.range ys.length).map (sliceBlock sl ((ys.map s2b).flatten ++ rest))
        = ys.map s2b := by
  intro ys
  induction ys with
  | nil => intro rest; rfl
  | cons y t ih =>
    intro rest
    have hbig : ((y :: t).map s2b).flatten ++ rest
        = s2b y ++ ((t.map s2b).flatten ++ rest) := by
      rw [List.map_cons, List.flatten_cons, List.append_assoc]
    have h0 : sliceBlock sl (s2b y ++ ((t.map s2b).flatten ++ rest)) 0 = s2b y := by
      unfold sliceBlock
      rw [Nat.zero_mul, List.drop_zero, ← H2 y, List.take_left]
    have hsucc : ∀ (i : Nat) (X : List Nat),
        sliceBlock sl (s2b y ++ X) (i + 1) = sliceBlock sl X i := by
      intro i X
      unfold sliceBlock
      have hdd : s2b y ++ X = s2b y ++ X := rfl
      rw [Nat.succ_mul, Nat.add_comm, ← List.drop_drop]
      have hdl : List.drop sl (s2b y ++ X) = X := by
        rw [← H2 y, List.drop_left]
      rw [hdl]
    rw [hbig, List.length_cons, List.range_succ_eq_map, List.map_cons, h0,
      List.map_map, List.map_cons]
    congr 1
    calc (List.range t.length).map (sliceBlock sl (s2b y ++ ((t.map s2b).flatten ++ rest)) ∘ Nat.succ)
        = (List.range t.length).map (sliceBlock sl ((t.map s2b).flatten ++ rest)) := by
          apply List.map_congr_left
          intro i _
          exact hsucc i ((t.map s2b).flatten ++ rest)
      _ = t.map s2b := ih rest

/-- Auxiliary: decoding the encodings of `ys` block by block recovers
`ys`. -/
theorem decodeBlocks_encoding {F : Type} (s2b : F → List Nat)
    (b2s : List Nat → Option F) (H1 : ∀ s, b2s (s2b s) = some s) :
    ∀ ys : List F, decodeBlocks b2s (ys.map s2b) = some ys := by
  intro ys
  induction ys with
  | nil => rfl
  | cons y t ih =>
    rw [List.map_cons]
    simp only [decodeBlocks, H1 y, ih]

/-- C9: for every fixed-length codec capability that round-trips single
scalars and points, the BLS secret-key, public-key and signature codecs
and the PS secret-key codec all satisfy `decode(encode(x)) = x`. -/
theorem encode_decode_roundtrip {F P1 P2 : Type}
    (sl g1l g2l : Nat) (hsl : 0 < sl)
    (s2b : F → List Nat) (b2s : List Nat → Option F)
    (g1enc : P1 → List Nat) (g1dec : List Nat → Option P1)
    (g2enc : P2 → List Nat) (g2dec : List Nat → Option P2)
    (Hs1 : ∀ s, b2s (s2b s) = some s) (Hs2 : ∀ s, (s2b s).length = sl)
    (H11 : ∀ p, g1dec (g1enc p) = some p) (H12 : ∀ p, (g1enc p).length = g1l)
    (H21 : ∀ p, g2dec (g2enc p) = some p) (H22 : ∀ p, (g2enc p).length = g2l) :
    (∀ k : F, blsSecretKeyFromBytes b2s sl (blsSecretKeyToBytes s2b k) = some k)
    ∧ (∀ pk : P2, blsPublicKeyFromBytes g2dec g2l (blsPublicKeyToBytes g2enc pk) = some pk)
    ∧ (∀ s : P1, blsSignatureFromBytes g1dec g1l (blsSignatureToBytes g1enc s) = some s)
    ∧ (∀ sk : PsSecretKey F, psFromBytes sl b2s (psToBytes s2b sk) = Except.ok sk) := by
  refine ⟨?_, ?_, ?_, ?_⟩
  · intro k
    unfold blsSecretKeyFromBytes blsSecretKeyToBytes
    rw [List.take_of_length_le (Nat.le_of_eq (Hs2 k)), Hs1]
  · intro pk
    unfold blsPublicKeyFromBytes blsPublicKeyToBytes
    rw [List.take_of_length_le (Nat.le_of_eq (H22 pk)), H21]
  · intro s
    unfold blsSignatureFromBytes blsSignatureToBytes
    rw [List.take_of_length_le (Nat.le_of_eq (H12 s)), H11]
  · intro sk
    obtain ⟨ys, x⟩ := sk
    have hblen : ((ys.map s2b).flatten).length = ys.length * sl :=
      flatten_map_enc_length sl s2b Hs2 ys
    have hlen : (psToBytes s2b ⟨ys, x⟩).length = (ys.length + 1) * sl := by
      unfold psToBytes
      rw [List.length_append, hblen, Hs2, Nat.succ_mul]
    have hc : ¬ ((psToBytes s2b ⟨ys, x⟩).length = 0
        ∨ (psToBytes s2b ⟨ys, x⟩).length < sl
        ∨ (psToBytes s2b ⟨ys, x⟩).length % sl ≠ 0) := by
      rw [hlen]
      rintro (h | h | h)
      · exact Nat.mul_ne_zero (by omega) (by omega) h
      · have hle : sl ≤ (ys.length + 1) * sl := by
          calc sl = 1 * sl := (one_mul sl).symm
          _ ≤ (ys.length + 1) * sl := Nat.mul_le_mul_right sl (by omega)
        omega
      · exact h (Nat.mul_mod_left _ sl)
    have hdiv : (psToBytes s2b ⟨ys, x⟩).length / sl - 1 = ys.length := by
      rw [hlen, Nat.mul_div_cancel _ hsl]
      omega
    have hblocks : (List.range ((psToBytes s2b ⟨ys, x⟩).length / sl - 1)).map
        (sliceBlock sl (psToBytes s2b ⟨ys, x⟩)) = ys.map s2b := by
      rw [hdiv]
      exact blocks_of_encoding sl s2b Hs2 ys (s2b x)
    have hlast : (psToBytes s2b ⟨ys, x⟩).drop ((psToBytes s2b ⟨ys, x⟩).length - sl)
        = s2b x := by
      have h1 : (psToBytes s2b ⟨ys, x⟩).length - sl = ys.length * sl := by
        rw [hlen, Nat.succ_mul]
        omega
      rw [h1]
      show ((ys.map s2b).flatten ++ s2b x).drop (ys.length * sl) = s2b x
      rw [← hblen, List.drop_left]
    unfold psFromBytes
    rw [if_neg hc, hblocks, decodeBlocks_encoding s2b b2s Hs1 ys, hlast, Hs1]

/-- C9 witness: the concrete one-byte codec round-trips concrete BLS
values and a concrete two-attribute PS secret key. -/
theorem encode_decode_roundtrip_witness :
    blsSecretKeyFromBytes cDec 1 (blsSecretKeyToBytes cEnc 3) = some 3 ∧
    blsPublicKeyFromBytes cDec 1 (blsPublicKeyToBytes cEnc 2) = some 2 ∧
    blsSignatureFromBytes cDec 1 (blsSignatureToBytes cEnc 4) = some 4 ∧
    psFromBytes 1 cDec (psToBytes cEnc ⟨[2, 3], 4⟩) = Except.ok ⟨[2, 3], 4⟩ := by
  have h := encode_decode_roundtrip 1 1 1 (by decide) cEnc cDec cEnc cDec cEnc cDec
    (by decide) (by decide) (by decide) (by decide) (by decide) (by decide)
  exact ⟨h.1 3, h.2.1 2, h.2.2.1 4, h.2.2.2 ⟨[2, 3], 4⟩⟩
